import Mathlib

/-!
Verification of the greedy binary expansion core of
`Greedy_Binary_Expansions_Algorithm.py`.

The three core functions (`binary_exponents`, the partial-sum
reconstructor, `exps_to_bitstring`) are embedded over exact rationals
(`ℚ`, mirroring Python's `Fraction`).  Python's left shift `v << s`
raises `ValueError` on a negative shift count `s`; that failure mode is
modelled by `Option`, and the explicit `raise ValueError("n must be at
least 1")` by a dedicated error constructor.
-/

/-- Python `int.bit_length` on a natural number, written with explicit
fuel so that it is structurally recursive; fuel `n` always suffices. -/
def bitLenAux : ℕ → ℕ → ℕ
  | 0, _ => 0
  | fuel + 1, n => if n = 0 then 0 else bitLenAux fuel (n / 2) + 1

/-- Python `v.bit_length()`: number of bits of the absolute value. -/
def bit_length (v : ℤ) : ℕ := bitLenAux v.natAbs v.natAbs

/-- Python `v << s` on arbitrary-precision integers: left shift, raising
(`none`) when the shift count is negative. -/
def pyShiftL (v : ℤ) (s : ℤ) : Option ℤ :=
  if s < 0 then none else some (v * 2 ^ s.toNat)

/-- The two ways the embedded Python code can raise. -/
inductive PyError where
  | invalidInput : String → PyError
  | negativeShift : PyError
deriving DecidableEq

/-- Lines 52-55 of the source: `floor(log2(p/q))` via integer bit
lengths and one comparison against a left shift. -/
def floorLog2Comp (p q : ℤ) : Option ℤ :=
  let candidate : ℤ := (bit_length p : ℤ) - (bit_length q : ℤ)
  match pyShiftL q candidate with
  | none => none
  | some qc => some (if p < qc then candidate - 1 else candidate)

/-- Lines 57-58 of the source: `ceil(log2(p/q))` from the floor value,
promoting by one unless `p/q` is itself a power of two. -/
def ceilLog2Comp (p q : ℤ) : Option ℤ :=
  match floorLog2Comp p q with
  | none => none
  | some fl =>
    match pyShiftL q fl with
    | none => none
    | some qf => some (if p = qf then fl else fl + 1)

/-- One iteration of the expansion loop body (lines 49-61 of the
source), run on a nonzero remainder: computes `inv = 1/rem`, its
numerator and denominator, the emitted exponent `m`, and the updated
remainder `rem * (1 << m) - 1`. -/
def expansionStep (rem : ℚ) : Option (ℤ × ℚ) :=
  let inv : ℚ := 1 / rem
  let p : ℤ := inv.num
  let q : ℤ := (inv.den : ℤ)
  match ceilLog2Comp p q with
  | none => none
  | some m =>
    match pyShiftL 1 m with
    | none => none
    | some sm => some (m, rem * (sm : ℚ) - 1)

/-- The `for _ in range(n)` loop of `binary_exponents` (lines 46-62):
breaks when the remainder is zero, otherwise performs one step and
recurses on the remaining iteration count. -/
def binaryExpLoop : ℕ → ℚ → Option (List ℤ)
  | 0, _ => some []
  | fuel + 1, rem =>
    if rem = 0 then some []
    else
      match expansionStep rem with
      | none => none
      | some (m, rem2) =>
        match binaryExpLoop fuel rem2 with
        | none => none
        | some rest => some (m :: rest)

/-- `binary_exponents` (lines 35-63 of the source): validates `n ≥ 1`,
then runs the expansion loop at most `n` times. -/
def binary_exponents (x : ℚ) (n : ℤ) : Except PyError (List ℤ) :=
  if n < 1 then .error (.invalidInput "n must be at least 1")
  else
    match binaryExpLoop n.toNat x with
    | none => .error .negativeShift
    | some exps => .ok exps

/-- The fold of the partial-sum reconstructor (lines 70-73 of the
source): running cumulative exponent `cum`, accumulator `total`, adding
`Fraction(1, 1 << cum)` per exponent. -/
def partSumAux : List ℤ → ℚ → ℤ → Option ℚ
  | [], total, _ => some total
  | m :: rest, total, cum =>
    match pyShiftL 1 (cum + m) with
    | none => none
    | some d => partSumAux rest (total + 1 / (d : ℚ)) (cum + m)

/-- The partial-sum reconstructor `partial_binary_sum` of the source
(lines 65-74): `Σ 2^(-(m1+...+mk))`. -/
def part_binary_sum (exps : List ℤ) : Option ℚ := partSumAux exps 0 0

/-- `exps_to_bitstring` (lines 76-85 of the source): for each exponent
`m` emit `'1'` followed by `m - 1` copies of `'0'` (Python's
`'0' * (m - 1)` is empty for `m ≤ 1`). -/
def exps_to_bitstring (exps : List ℤ) : String :=
  String.join (exps.map fun m => "1" ++ String.mk (List.replicate (m - 1).toNat '0'))

/-- Remainder obtained from `r` by running the line-60 update
`rem = rem * (1 << m) - 1` once per listed exponent. -/
def remAfter : ℚ → List ℤ → ℚ
  | r, [] => r
  | r, m :: rest => remAfter (r * 2 ^ m.toNat - 1) rest

/-- Value of a digit string read as base-2 digits after a binary
point: `"d1 d2 ... dL"` denotes `Σ d_i * 2^(-i)`. -/
def bitstringValue (s : String) : ℚ :=
  (s.toList.foldl (fun acc c => 2 * acc + if c = '1' then 1 else 0) (0 : ℚ)) /
    2 ^ s.toList.length

/-- Ghost function: the ideal partial sum `Σ_k 2^(-(c + m1 + ... + mk))`
started at cumulative exponent `c`. -/
def psum : List ℤ → ℤ → ℚ
  | [], _ => 0
  | m :: rest, c => 1 / 2 ^ (c + m).toNat + psum rest (c + m)

/-! ### Concrete-evaluation helpers

Kernel reduction is blocked on `Nat.gcd` inside `Rat` normalisation, so
concrete runs of the embedded functions are evaluated through the
following lemmas: the integer side (`bit_length`, `ceilLog2Comp`,
shifts) is decided by the kernel, the rational side by `norm_num`. -/

theorem one_div_num_den {r : ℚ} {a b : ℤ} (hb : 0 < b)
    (hcop : Nat.Coprime a.natAbs b.natAbs) (h : 1 / r = (a : ℚ) / (b : ℚ)) :
    (1 / r).num = a ∧ ((1 / r).den : ℤ) = b := by
  rw [h]
  exact ⟨Rat.num_div_eq_of_coprime hb hcop, Rat.den_div_eq_of_coprime hb hcop⟩

theorem expansionStep_concrete (r : ℚ) (a b m : ℤ) (k : ℕ) (r2 : ℚ) (hb : 0 < b)
    (hcop : Nat.Coprime a.natAbs b.natAbs) (h : 1 / r = (a : ℚ) / (b : ℚ))
    (hceil : ceilLog2Comp a b = some m) (hm : ¬ m < 0) (hk : m.toNat = k)
    (hr2 : r * ((2 : ℚ) ^ k) - 1 = r2) :
    expansionStep r = some (m, r2) := by
  obtain ⟨hnum, hden⟩ := one_div_num_den hb hcop h
  have hsm : ((1 * 2 ^ m.toNat : ℤ) : ℚ) = (2 : ℚ) ^ k := by
    rw [hk]; push_cast; ring
  simp only [expansionStep, hnum, hden, hceil, pyShiftL, if_neg hm, hsm, hr2]

theorem binaryExpLoop_cons (fuel : ℕ) (r r2 : ℚ) (m : ℤ) (l : List ℤ)
    (hr : r ≠ 0) (hstep : expansionStep r = some (m, r2))
    (hrest : binaryExpLoop fuel r2 = some l) :
    binaryExpLoop (fuel + 1) r = some (m :: l) := by
  simp only [binaryExpLoop, if_neg hr, hstep, hrest]

theorem binaryExpLoop_zero_rem (fuel : ℕ) : binaryExpLoop (fuel + 1) 0 = some [] := by
  simp [binaryExpLoop]

theorem binary_exponents_of_loop (x : ℚ) (n : ℤ) (l : List ℤ) (hn : ¬ n < 1)
    (hl : binaryExpLoop n.toNat x = some l) : binary_exponents x n = .ok l := by
  simp only [binary_exponents, if_neg hn, hl]

theorem step_5_8 : expansionStep (5/8) = some (1, 1/4) := by
  refine expansionStep_concrete _ 8 5 1 1 _ (by norm_num) (by decide) (by norm_num)
    (by decide) (by decide) rfl (by norm_num)

theorem step_1_4 : expansionStep (1/4) = some (2, 0) := by
  refine expansionStep_concrete _ 4 1 2 2 _ (by norm_num) (by decide) (by norm_num)
    (by decide) (by decide) rfl (by norm_num)

theorem step_1_3 : expansionStep (1/3) = some (2, 1/3) := by
  refine expansionStep_concrete _ 3 1 2 2 _ (by norm_num) (by decide) (by norm_num)
    (by decide) (by decide) rfl (by norm_num)

theorem eval_bexp_5_8_3 : binary_exponents (5/8) 3 = .ok [1, 2] := by
  refine binary_exponents_of_loop _ _ _ (by norm_num) ?_
  have l2 : binaryExpLoop 1 (0 : ℚ) = some [] := binaryExpLoop_zero_rem 0
  have l1 : binaryExpLoop 2 (1/4 : ℚ) = some [2] :=
    binaryExpLoop_cons 1 _ _ _ _ (by norm_num) step_1_4 l2
  exact binaryExpLoop_cons 2 _ _ _ _ (by norm_num) step_5_8 l1

theorem eval_bexp_1_3_2 : binary_exponents (1/3) 2 = .ok [2, 2] := by
  refine binary_exponents_of_loop _ _ _ (by norm_num) ?_
  have l0 : binaryExpLoop 0 (1/3 : ℚ) = some [] := rfl
  have l1 : binaryExpLoop 1 (1/3 : ℚ) = some [2] :=
    binaryExpLoop_cons 0 _ _ _ _ (by norm_num) step_1_3 l0
  exact binaryExpLoop_cons 1 _ _ _ _ (by norm_num) step_1_3 l1

theorem eval_bexp_0_1 : binary_exponents 0 1 = .ok [] := by
  exact binary_exponents_of_loop _ _ _ (by norm_num) (binaryExpLoop_zero_rem 0)

theorem eval_psum_1_2 : part_binary_sum [1, 2] = some (5/8) := by
  norm_num [part_binary_sum, partSumAux, pyShiftL, (show ((3:ℤ).toNat) = 3 from rfl)]

theorem eval_bits_1_2 : exps_to_bitstring [1, 2] = "110" := by decide

theorem eval_bitsValue_110 : bitstringValue "110" = 3/4 := by
  have h : "110".toList = ['1', '1', '0'] := rfl
  simp only [bitstringValue, h, List.foldl, List.length]
  norm_num [(show ('0' = '1') = False by simp), (show ('1' = '1') = True by simp)]

theorem eval_remAfter_5_8 : remAfter (5/8) [1, 2] = 0 := by
  norm_num [remAfter, Int.toNat_one, (show ((2:ℤ).toNat) = 2 from rfl)]

/-! ### Correctness of the bit-length computation -/

theorem bitLenAux_zero (fuel : ℕ) : bitLenAux fuel 0 = 0 := by
  cases fuel <;> simp [bitLenAux]

theorem bitLenAux_spec : ∀ fuel n : ℕ, n ≠ 0 → n ≤ fuel →
    1 ≤ bitLenAux fuel n ∧ 2 ^ (bitLenAux fuel n - 1) ≤ n ∧ n < 2 ^ bitLenAux fuel n := by
  intro fuel
  induction fuel with
  | zero => intro n h0 hle; omega
  | succ fuel ih =>
    intro n h0 hle
    simp only [bitLenAux, if_neg h0]
    by_cases h2 : n / 2 = 0
    · have hn1 : n = 1 := by omega
      subst hn1
      simp [h2, bitLenAux_zero]
    · have hdiv : n / 2 ≤ fuel := by omega
      obtain ⟨h1, hlow, hhigh⟩ := ih (n / 2) h2 hdiv
      set b := bitLenAux fuel (n / 2) with hb
      have e1 : 2 ^ b = 2 * 2 ^ (b - 1) := by
        have e : b - 1 + 1 = b := by omega
        calc 2 ^ b = 2 ^ (b - 1 + 1) := by rw [e]
        _ = 2 * 2 ^ (b - 1) := by rw [pow_succ]; ring
      have e2 : 2 ^ (b + 1) = 2 * 2 ^ b := by rw [pow_succ]; ring
      have e3 : b + 1 - 1 = b := by omega
      refine ⟨by omega, ?_, by omega⟩
      rw [e3]
      omega

theorem bit_length_spec (v : ℤ) (hv : 0 < v) :
    1 ≤ bit_length v ∧ (2 : ℤ) ^ (bit_length v - 1) ≤ v ∧ v < 2 ^ bit_length v := by
  have h0 : v.natAbs ≠ 0 := by omega
  obtain ⟨h1, h2, h3⟩ := bitLenAux_spec v.natAbs v.natAbs h0 le_rfl
  have hv' : ((v.natAbs : ℤ)) = v := Int.natAbs_of_nonneg hv.le
  refine ⟨h1, ?_, ?_⟩
  · have := Int.ofNat_le.mpr h2
    push_cast at this
    rwa [abs_of_pos hv] at this
  · have := Int.ofNat_lt.mpr h3
    push_cast at this
    rwa [abs_of_pos hv] at this

/-! ### Correctness of the floor/ceil log2 computations -/

theorem bit_length_mono {p q : ℤ} (hq : 0 < q) (hpq : q < p) :
    bit_length q ≤ bit_length p := by
  obtain ⟨hq1, hqlow, hqhigh⟩ := bit_length_spec q hq
  obtain ⟨hp1, hplow, hphigh⟩ := bit_length_spec p (lt_trans hq hpq)
  by_contra hcon
  have hle : bit_length p ≤ bit_length q - 1 := by omega
  have : (2 : ℤ) ^ bit_length p ≤ 2 ^ (bit_length q - 1) :=
    pow_le_pow_right₀ (by norm_num) hle
  omega

theorem floorLog2Comp_spec (p q : ℤ) (hq : 0 < q) (hpq : q < p) :
    ∃ f : ℤ, floorLog2Comp p q = some f ∧ 0 ≤ f ∧
      q * 2 ^ f.toNat ≤ p ∧ p < q * 2 ^ (f.toNat + 1) := by
  have hp : 0 < p := lt_trans hq hpq
  obtain ⟨hq1, hqlow, hqhigh⟩ := bit_length_spec q hq
  obtain ⟨hp1, hplow, hphigh⟩ := bit_length_spec p hp
  set bp := bit_length p with hbp
  set bq := bit_length q with hbq
  have hmono : bq ≤ bp := bit_length_mono hq hpq
  have hcand : ¬ ((bp : ℤ) - (bq : ℤ) < 0) := by omega
  have hcandtoNat : ((bp : ℤ) - (bq : ℤ)).toNat = bp - bq := by omega
  simp only [floorLog2Comp, pyShiftL, if_neg hcand, hcandtoNat]
  by_cases hlt : p < q * 2 ^ (bp - bq)
  · -- floor_log2 = candidate - 1
    have hne : bq ≠ bp := by
      intro he
      rw [he] at hlt
      simp at hlt
      omega
    have hge1 : bq + 1 ≤ bp := by omega
    refine ⟨(bp : ℤ) - (bq : ℤ) - 1, by rw [if_pos hlt], by omega, ?_, ?_⟩
    · -- q * 2 ^ (bp - bq - 1) ≤ p
      have ht : ((bp : ℤ) - (bq : ℤ) - 1).toNat = bp - bq - 1 := by omega
      rw [ht]
      have key : q * 2 ^ (bp - bq - 1) < 2 ^ bp := by
        calc q * 2 ^ (bp - bq - 1) < 2 ^ bq * 2 ^ (bp - bq - 1) :=
              mul_lt_mul_of_pos_right hqhigh (by positivity)
        _ = 2 ^ (bq + (bp - bq - 1)) := by rw [pow_add]
        _ ≤ 2 ^ bp := pow_le_pow_right₀ (by norm_num) (by omega)
      -- p ≥ 2 ^ (bp - 1) and q * 2 ^ (bp - bq - 1) ≤ 2 ^ (bp - 1)
      have key2 : q * 2 ^ (bp - bq - 1) ≤ 2 ^ (bp - 1) := by
        have : q * 2 ^ (bp - bq - 1) ≤ (2 ^ bq - 1) * 2 ^ (bp - bq - 1) := by
          have : q ≤ 2 ^ bq - 1 := by omega
          exact mul_le_mul_of_nonneg_right this (by positivity)
        calc q * 2 ^ (bp - bq - 1) ≤ (2 ^ bq - 1) * 2 ^ (bp - bq - 1) := this
        _ = 2 ^ (bq + (bp - bq - 1)) - 2 ^ (bp - bq - 1) := by rw [sub_mul, pow_add]; ring
        _ ≤ 2 ^ (bp - 1) - 0 := by
              have he : bq + (bp - bq - 1) = bp - 1 := by omega
              rw [he]
              have : (0 : ℤ) ≤ 2 ^ (bp - bq - 1) := by positivity
              omega
        _ = 2 ^ (bp - 1) := by ring
      omega
    · have ht : ((bp : ℤ) - (bq : ℤ) - 1).toNat + 1 = bp - bq := by omega
      rw [ht]
      exact hlt
  · -- floor_log2 = candidate
    refine ⟨(bp : ℤ) - (bq : ℤ), by rw [if_neg hlt], by omega, ?_, ?_⟩
    · rw [hcandtoNat]
      omega
    · rw [hcandtoNat]
      have e : (2 : ℤ) ^ bp = 2 ^ (bq - 1) * 2 ^ (bp - bq + 1) := by
        rw [← pow_add]
        congr 1
        omega
      have key2 : (2 : ℤ) ^ (bq - 1) * 2 ^ (bp - bq + 1) ≤ q * 2 ^ (bp - bq + 1) :=
        mul_le_mul_of_nonneg_right hqlow (by positivity)
      calc p < 2 ^ bp := hphigh
      _ = 2 ^ (bq - 1) * 2 ^ (bp - bq + 1) := e
      _ ≤ q * 2 ^ (bp - bq + 1) := key2

theorem ceilLog2Comp_spec (p q : ℤ) (hq : 0 < q) (hpq : q < p) :
    ∃ m : ℤ, ceilLog2Comp p q = some m ∧ 1 ≤ m ∧
      p ≤ q * 2 ^ m.toNat ∧ q * 2 ^ (m.toNat - 1) < p := by
  obtain ⟨f, hf, hf0, hlow, hhigh⟩ := floorLog2Comp_spec p q hq hpq
  have hfn : ¬ f < 0 := by omega
  simp only [ceilLog2Comp, hf, pyShiftL, if_neg hfn]
  by_cases heq : p = q * 2 ^ f.toNat
  · have hf1 : 1 ≤ f := by
      rcases eq_or_lt_of_le hf0 with he | hlt
      · exfalso
        rw [← he] at heq
        simp at heq
        omega
      · omega
    have hft : 1 ≤ f.toNat := by omega
    refine ⟨f, by rw [if_pos heq], hf1, le_of_eq heq, ?_⟩
    have e : (2 : ℤ) ^ f.toNat = 2 ^ (f.toNat - 1) * 2 := by
      rw [← pow_succ]
      congr 1
      omega
    rw [heq, e]
    have hpos : 0 < q * 2 ^ (f.toNat - 1) := by positivity
    calc q * 2 ^ (f.toNat - 1) < q * 2 ^ (f.toNat - 1) * 2 := by linarith
    _ = q * (2 ^ (f.toNat - 1) * 2) := by ring
  · refine ⟨f + 1, by rw [if_neg heq], by omega, ?_, ?_⟩
    · have ht : (f + 1).toNat = f.toNat + 1 := by omega
      rw [ht]
      exact le_of_lt hhigh
    · have ht : (f + 1).toNat - 1 = f.toNat := by omega
      rw [ht]
      exact lt_of_le_of_ne hlow fun h => heq h.symm

/-! ### The expansion step on a remainder in (0, 1) -/

theorem expansionStep_spec (r : ℚ) (h0 : 0 < r) (h1 : r < 1) :
    ∃ m : ℤ, expansionStep r = some (m, r * 2 ^ m.toNat - 1) ∧ 1 ≤ m ∧
      1 ≤ r * 2 ^ m.toNat ∧ r * 2 ^ (m.toNat - 1) < 1 := by
  have hr0 : r ≠ 0 := ne_of_gt h0
  have hinv1 : 1 < 1 / r := (one_lt_div h0).mpr h1
  have hq : (0 : ℤ) < ((1 / r).den : ℤ) := by exact_mod_cast (1 / r).den_pos
  have hq' : (0 : ℚ) < ((1 / r).den : ℚ) := by exact_mod_cast (1 / r).den_pos
  have hnum_den : (((1 / r).num : ℚ)) / (((1 / r).den : ℚ)) = 1 / r :=
    Rat.num_div_den (1 / r)
  have hpq : ((1 / r).den : ℤ) < (1 / r).num := by
    have h2 : (((1 / r).den : ℚ)) < (((1 / r).num : ℚ)) :=
      (one_lt_div hq').mp (by rw [hnum_den]; exact hinv1)
    exact_mod_cast h2
  obtain ⟨m, hceil, hm1, hup, hlo⟩ := ceilLog2Comp_spec (1 / r).num ((1 / r).den : ℤ) hq hpq
  have hkey : r * (((1 / r).num : ℚ)) = ((1 / r).den : ℚ) := by
    have h2 : (((1 / r).num : ℚ)) / (((1 / r).den : ℚ)) = 1 / r := hnum_den
    field_simp at h2
    linarith
  have hup' : (((1 / r).num : ℚ)) ≤ ((1 / r).den : ℚ) * 2 ^ m.toNat := by
    exact_mod_cast hup
  have hlo' : ((1 / r).den : ℚ) * 2 ^ (m.toNat - 1) < (((1 / r).num : ℚ)) := by
    exact_mod_cast hlo
  have hineq1 : 1 ≤ r * 2 ^ m.toNat := by
    have h3 : r * (((1 / r).num : ℚ)) ≤ r * (((1 / r).den : ℚ) * 2 ^ m.toNat) :=
      mul_le_mul_of_nonneg_left hup' h0.le
    rw [hkey] at h3
    have h4 : ((1 / r).den : ℚ) * 1 ≤ ((1 / r).den : ℚ) * (r * 2 ^ m.toNat) := by
      calc ((1 / r).den : ℚ) * 1 = ((1 / r).den : ℚ) := by ring
      _ ≤ r * (((1 / r).den : ℚ) * 2 ^ m.toNat) := h3
      _ = ((1 / r).den : ℚ) * (r * 2 ^ m.toNat) := by ring
    exact le_of_mul_le_mul_left h4 hq'
  have hineq2 : r * 2 ^ (m.toNat - 1) < 1 := by
    have h3 : r * (((1 / r).den : ℚ) * 2 ^ (m.toNat - 1)) < r * (((1 / r).num : ℚ)) :=
      mul_lt_mul_of_pos_left hlo' h0
    rw [hkey] at h3
    have h4 : ((1 / r).den : ℚ) * (r * 2 ^ (m.toNat - 1)) < ((1 / r).den : ℚ) * 1 := by
      calc ((1 / r).den : ℚ) * (r * 2 ^ (m.toNat - 1))
          = r * (((1 / r).den : ℚ) * 2 ^ (m.toNat - 1)) := by ring
      _ < ((1 / r).den : ℚ) := h3
      _ = ((1 / r).den : ℚ) * 1 := by ring
    exact lt_of_mul_lt_mul_left h4 hq'.le
  refine ⟨m, ?_, hm1, hineq1, hineq2⟩
  have hmn : ¬ m < 0 := by omega
  have hcast : ((1 * 2 ^ m.toNat : ℤ) : ℚ) = 2 ^ m.toNat := by push_cast; ring
  simp only [expansionStep, hceil, pyShiftL, if_neg hmn, hcast]

/-- Structural shape of a successful step, for arbitrary remainders:
the emitted exponent is nonnegative and the new remainder is the
line-60 update. -/
theorem expansionStep_shape (r : ℚ) (m : ℤ) (r2 : ℚ)
    (h : expansionStep r = some (m, r2)) : 0 ≤ m ∧ r2 = r * 2 ^ m.toNat - 1 := by
  simp only [expansionStep] at h
  cases hc : ceilLog2Comp (1 / r).num ((1 / r).den : ℤ) with
  | none => rw [hc] at h; simp at h
  | some m2 =>
    rw [hc] at h
    simp only [pyShiftL] at h
    by_cases hm : m2 < 0
    · rw [if_pos hm] at h
      simp at h
    · rw [if_neg hm] at h
      simp only [Option.some.injEq, Prod.mk.injEq] at h
      obtain ⟨hm2, hr2⟩ := h
      subst hm2
      refine ⟨by omega, ?_⟩
      rw [← hr2]
      push_cast
      ring

/-! ### The expansion loop -/

theorem binaryExpLoop_spec : ∀ (fuel : ℕ) (r : ℚ), 0 ≤ r → r < 1 →
    ∃ l, binaryExpLoop fuel r = some l ∧
      (∀ m ∈ l, 1 ≤ m) ∧
      l.length ≤ fuel ∧
      (∀ k, k ≤ l.length → 0 ≤ remAfter r (l.take k) ∧ remAfter r (l.take k) < 1) ∧
      (l.length < fuel → remAfter r l = 0) ∧
      (∀ k, k < l.length → remAfter r (l.take k) ≠ 0) := by
  intro fuel
  induction fuel with
  | zero =>
    intro r h0 h1
    refine ⟨[], rfl, by simp, by simp, ?_, by omega, by simp⟩
    intro k hk
    simp only [List.length_nil, Nat.le_zero] at hk
    subst hk
    exact ⟨h0, h1⟩
  | succ fuel ih =>
    intro r h0 h1
    by_cases hr : r = 0
    · subst hr
      refine ⟨[], binaryExpLoop_zero_rem fuel, by simp, by simp, ?_, fun _ => rfl, by simp⟩
      intro k hk
      simp only [List.length_nil, Nat.le_zero] at hk
      subst hk
      constructor <;> norm_num [remAfter]
    · have h0' : 0 < r := lt_of_le_of_ne h0 (Ne.symm hr)
      obtain ⟨m, hstep, hm1, hge, hlt⟩ := expansionStep_spec r h0' h1
      set r2 := r * 2 ^ m.toNat - 1 with hr2def
      have h20 : 0 ≤ r2 := by rw [hr2def]; linarith
      have h21 : r2 < 1 := by
        have e : (2 : ℚ) ^ m.toNat = 2 ^ (m.toNat - 1) * 2 := by
          rw [← pow_succ]
          congr 1
          omega
        have h2 : r * 2 ^ m.toNat < 2 := by
          calc r * 2 ^ m.toNat = r * 2 ^ (m.toNat - 1) * 2 := by rw [e]; ring
          _ < 1 * 2 := by linarith
          _ = 2 := by ring
        rw [hr2def]
        linarith
      obtain ⟨l2, hl2, hel, hlen, htake, hzero, hnz⟩ := ih r2 h20 h21
      have hremc : ∀ t : List ℤ, remAfter r (m :: t) = remAfter r2 t := by
        intro t
        simp [remAfter, hr2def]
      refine ⟨m :: l2, binaryExpLoop_cons fuel r r2 m l2 hr hstep hl2, ?_, ?_, ?_, ?_, ?_⟩
      · intro x hx
        rcases List.mem_cons.mp hx with he | hx2
        · rw [he]; exact hm1
        · exact hel x hx2
      · simpa using Nat.succ_le_succ hlen
      · intro k hk
        cases k with
        | zero => exact ⟨h0, h1⟩
        | succ j =>
          have hj : j ≤ l2.length := by simpa using hk
          have e : (m :: l2).take (j + 1) = m :: l2.take j := rfl
          rw [e, hremc]
          exact htake j hj
      · intro hlenlt
        have h2 : l2.length < fuel := by simpa using hlenlt
        have e : remAfter r (m :: l2) = remAfter r2 l2 := hremc l2
        rw [e]
        exact hzero h2
      · intro k hk
        cases k with
        | zero => exact hr
        | succ j =>
          have hj : j < l2.length := by simpa using hk
          have e : (m :: l2).take (j + 1) = m :: l2.take j := rfl
          rw [e, hremc]
          exact hnz j hj

theorem binaryExpLoop_shape : ∀ (fuel : ℕ) (r : ℚ) (l : List ℤ),
    binaryExpLoop fuel r = some l →
      l.length ≤ fuel ∧
      (l.length < fuel → remAfter r l = 0) ∧
      (∀ k, k < l.length → remAfter r (l.take k) ≠ 0) := by
  intro fuel
  induction fuel with
  | zero =>
    intro r l h
    simp only [binaryExpLoop, Option.some.injEq] at h
    subst h
    exact ⟨by simp, by omega, by simp⟩
  | succ fuel ih =>
    intro r l h
    simp only [binaryExpLoop] at h
    by_cases hr : r = 0
    · rw [if_pos hr] at h
      simp only [Option.some.injEq] at h
      subst h
      exact ⟨by simp, fun _ => hr, by simp⟩
    · rw [if_neg hr] at h
      cases hs : expansionStep r with
      | none => rw [hs] at h; simp at h
      | some pr =>
        obtain ⟨m, r2⟩ := pr
        rw [hs] at h
        dsimp only at h
        cases hrest : binaryExpLoop fuel r2 with
        | none => rw [hrest] at h; simp at h
        | some rest =>
          rw [hrest] at h
          simp only [Option.some.injEq] at h
          subst h
          obtain ⟨hm0, hr2eq⟩ := expansionStep_shape r m r2 hs
          obtain ⟨hlen, hzero, hnz⟩ := ih r2 rest hrest
          have hremc : ∀ t : List ℤ, remAfter r (m :: t) = remAfter r2 t := by
            intro t
            simp [remAfter, ← hr2eq]
          refine ⟨by simpa using Nat.succ_le_succ hlen, ?_, ?_⟩
          · intro hl
            rw [hremc]
            exact hzero (by simpa using hl)
          · intro k hk
            cases k with
            | zero => exact hr
            | succ j =>
              have e : (m :: rest).take (j + 1) = m :: rest.take j := rfl
              rw [e, hremc]
              exact hnz j (by simpa using hk)

/-! ### The partial-sum reconstructor -/

theorem partSumAux_psum : ∀ (l : List ℤ) (t : ℚ) (c : ℤ), 0 ≤ c → (∀ m ∈ l, 1 ≤ m) →
    partSumAux l t c = some (t + psum l c) := by
  intro l
  induction l with
  | nil =>
    intro t c _ _
    simp [partSumAux, psum]
  | cons m rest ih =>
    intro t c hc hm
    have hm1 : 1 ≤ m := hm m (List.mem_cons_self m rest)
    have hns : ¬ c + m < 0 := by omega
    have hcast : ((1 * 2 ^ (c + m).toNat : ℤ) : ℚ) = 2 ^ (c + m).toNat := by
      push_cast
      ring
    simp only [partSumAux, pyShiftL, if_neg hns, hcast]
    rw [ih (t + 1 / 2 ^ (c + m).toNat) (c + m) (by omega)
      (fun x hx => hm x (List.mem_cons_of_mem m hx))]
    simp only [psum, Option.some.injEq]
    ring

theorem psum_remAfter : ∀ (l : List ℤ) (r : ℚ) (c : ℤ), 0 ≤ c → (∀ m ∈ l, 1 ≤ m) →
    psum l c + remAfter r l / 2 ^ (c + l.sum).toNat = r / 2 ^ c.toNat := by
  intro l
  induction l with
  | nil =>
    intro r c _ _
    simp [psum, remAfter]
  | cons m rest ih =>
    intro r c hc hm
    have hm1 : 1 ≤ m := hm m (List.mem_cons_self m rest)
    have ihm := ih (r * 2 ^ m.toNat - 1) (c + m) (by omega)
      (fun x hx => hm x (List.mem_cons_of_mem m hx))
    simp only [psum, remAfter, List.sum_cons]
    rw [show c + (m + rest.sum) = c + m + rest.sum from by ring]
    rw [add_assoc, ihm]
    have et : (c + m).toNat = c.toNat + m.toNat := by omega
    have h2c : ((2 : ℚ) ^ c.toNat) ≠ 0 := by positivity
    have h2m : ((2 : ℚ) ^ m.toNat) ≠ 0 := by positivity
    rw [et, pow_add]
    field_simp
    ring

theorem psum_bounds : ∀ (l : List ℤ) (c : ℤ), 0 ≤ c → (∀ m ∈ l, 1 ≤ m) →
    0 ≤ psum l c ∧ psum l c < 1 / 2 ^ c.toNat ∧ (l ≠ [] → 0 < psum l c) := by
  intro l
  induction l with
  | nil =>
    intro c _ _
    refine ⟨le_refl 0, by positivity, fun h => absurd rfl h⟩
  | cons m rest ih =>
    intro c hc hm
    have hm1 : 1 ≤ m := hm m (List.mem_cons_self m rest)
    obtain ⟨ih0, ih1, _⟩ := ih (c + m) (by omega)
      (fun x hx => hm x (List.mem_cons_of_mem m hx))
    simp only [psum]
    have hpos : (0 : ℚ) < 1 / 2 ^ (c + m).toNat := by positivity
    have key : (2 : ℚ) * (1 / 2 ^ (c + m).toNat) ≤ 1 / 2 ^ c.toNat := by
      have et : (c + m).toNat = c.toNat + m.toNat := by omega
      have hmt : 1 ≤ m.toNat := by omega
      have h2m : (2 : ℚ) ≤ 2 ^ m.toNat := by
        calc (2 : ℚ) = 2 ^ 1 := (pow_one 2).symm
        _ ≤ 2 ^ m.toNat := pow_le_pow_right₀ (by norm_num) hmt
      rw [et, pow_add, mul_one_div]
      rw [div_le_div_iff₀ (by positivity) (by positivity)]
      have hcpos : (0 : ℚ) < 2 ^ c.toNat := by positivity
      calc (2 : ℚ) * 2 ^ c.toNat ≤ 2 ^ m.toNat * 2 ^ c.toNat :=
            mul_le_mul_of_nonneg_right h2m hcpos.le
      _ = 1 * (2 ^ c.toNat * 2 ^ m.toNat) := by ring
    refine ⟨by linarith, by linarith, fun _ => by linarith⟩

/-! ### Extraction helpers for `binary_exponents` -/

theorem binary_exponents_ok_loop (x : ℚ) (n : ℤ) (l : List ℤ)
    (h : binary_exponents x n = .ok l) :
    ¬ n < 1 ∧ binaryExpLoop n.toNat x = some l := by
  by_cases hn : n < 1
  · simp [binary_exponents, hn] at h
  · refine ⟨hn, ?_⟩
    simp only [binary_exponents, if_neg hn] at h
    cases hl : binaryExpLoop n.toNat x with
    | none => rw [hl] at h; simp at h
    | some l2 =>
      rw [hl] at h
      simp only [Except.ok.injEq] at h
      rw [h]

theorem binary_exponents_spec (x : ℚ) (n : ℤ) (l : List ℤ)
    (h0 : 0 < x) (h1 : x < 1) (hok : binary_exponents x n = .ok l) :
    (∀ m ∈ l, 1 ≤ m) ∧
    l.length ≤ n.toNat ∧
    (∀ k, k ≤ l.length → 0 ≤ remAfter x (l.take k) ∧ remAfter x (l.take k) < 1) ∧
    (l.length < n.toNat → remAfter x l = 0) ∧
    (∀ k, k < l.length → remAfter x (l.take k) ≠ 0) := by
  obtain ⟨hn, hl⟩ := binary_exponents_ok_loop x n l hok
  obtain ⟨l2, hl2, hel, hlen, htake, hzero, hnz⟩ := binaryExpLoop_spec n.toNat x h0.le h1
  rw [hl] at hl2
  simp only [Option.some.injEq] at hl2
  subst hl2
  exact ⟨hel, hlen, htake, hzero, hnz⟩

theorem scanl_chain : ∀ (l : List ℤ) (c : ℤ), (∀ m ∈ l, 1 ≤ m) →
    List.Chain' (· < ·) (l.scanl (· + ·) c) := by
  intro l
  induction l with
  | nil =>
    intro c _
    simp
  | cons m rest ih =>
    intro c hm
    rw [List.scanl, List.chain'_cons']
    constructor
    · intro y hy
      have hh : (List.scanl (· + ·) (c + m) rest).head? = some (c + m) := by
        cases rest <;> simp [List.scanl]
      rw [hh] at hy
      simp only [Option.mem_some_iff] at hy
      have h1 : 1 ≤ m := hm m (List.mem_cons_self m rest)
      omega
    · exact ih (c + m) (fun x hx => hm x (List.mem_cons_of_mem m hx))

/-! ### The claims -/

/-- C1: the claimed bit alignment (the rendered string of an expansion,
read as base-2 digits after a binary point, equals the reconstructed
partial sum) fails on the code.  For x = 5/8, n = 3 the expansion is
[1, 2]; `exps_to_bitstring` renders "110", whose base-2 value is 3/4,
while the reconstructed sum is 5/8: the code emits each '1' before its
zeros instead of after them, contradicting the program's own
"Exact bits" output. -/
theorem c1_bit_alignment_fails :
    binary_exponents (5/8) 3 = .ok [1, 2] ∧
    exps_to_bitstring [1, 2] = "110" ∧
    part_binary_sum [1, 2] = some (5/8) ∧
    bitstringValue (exps_to_bitstring [1, 2]) = 3/4 ∧
    bitstringValue (exps_to_bitstring [1, 2]) ≠ 5/8 :=
  ⟨eval_bexp_5_8_3, eval_bits_1_2, eval_psum_1_2,
   by rw [eval_bits_1_2]; exact eval_bitsValue_110,
   by rw [eval_bits_1_2, eval_bitsValue_110]; norm_num⟩

/-- C2, counterexample: for x = 1/3 (inside (0,1)) and n = 2 the
returned sequence is [2, 2], which is not strictly increasing. -/
theorem c2_counterexample :
    binary_exponents (1/3) 2 = .ok [2, 2] ∧
    ¬ List.Chain' (· < ·) ([2, 2] : List ℤ) ∧
    (0 : ℚ) < 1/3 ∧ (1/3 : ℚ) < 1 ∧ (1 : ℤ) ≤ 2 :=
  ⟨eval_bexp_1_3_2, by simp [List.chain'_cons], by norm_num, by norm_num, by norm_num⟩

/-- C2, amended: the sequence returned by `binary_exponents` need not be
strictly increasing; instead every element is at least 1 and the
sequence of cumulative sums (the actual bit positions) is strictly
increasing. -/
theorem c2_amended (x : ℚ) (n : ℤ) (h0 : 0 < x) (h1 : x < 1) (_hn : 1 ≤ n)
    (l : List ℤ) (hok : binary_exponents x n = .ok l) :
    (∀ m ∈ l, 1 ≤ m) ∧ List.Chain' (· < ·) (l.scanl (· + ·) 0) := by
  obtain ⟨hel, _, _, _, _⟩ := binary_exponents_spec x n l h0 h1 hok
  exact ⟨hel, scanl_chain l 0 hel⟩

/-- Witness for C2's amended theorem at x = 1/3, n = 2. -/
theorem c2_amended_witness :
    (∀ m ∈ ([2, 2] : List ℤ), 1 ≤ m) ∧
    List.Chain' (· < ·) (([2, 2] : List ℤ).scanl (· + ·) 0) :=
  c2_amended (1/3) 2 (by norm_num) (by norm_num) (by norm_num) [2, 2] eval_bexp_1_3_2

/-- C3, counterexample: for x = 5/8, n = 3 the code returns the
exponent list [1, 2] (not [1, 3]) and the bitstring "110"
(not "101"). -/
theorem c3_counterexample :
    binary_exponents (5/8) 3 = .ok [1, 2] ∧
    ([1, 2] : List ℤ) ≠ [1, 3] ∧
    exps_to_bitstring [1, 2] ≠ "101" :=
  ⟨eval_bexp_5_8_3, by decide, by rw [eval_bits_1_2]; decide⟩

/-- C3, amended: for x = 5/8, n = 3 the code returns exponents [1, 2]
(incremental gaps whose cumulative sums 1 and 3 are the bit positions),
reconstructs exactly 5/8, renders the string "110", and terminates
early: the returned length 2 is less than n = 3 because the remainder
hit 0 after 2 terms. -/
theorem c3_amended :
    binary_exponents (5/8) 3 = .ok [1, 2] ∧
    part_binary_sum [1, 2] = some (5/8) ∧
    exps_to_bitstring [1, 2] = "110" ∧
    ([1, 2] : List ℤ).length < 3 ∧
    remAfter (5/8) [1, 2] = 0 :=
  ⟨eval_bexp_5_8_3, eval_psum_1_2, eval_bits_1_2, by decide, eval_remAfter_5_8⟩

/-- C4, counterexample: `binary_exponents` does not validate x.
For x = 0 (outside the open unit interval) and n = 1 it returns
an ok result, raising no error. -/
theorem c4_counterexample :
    binary_exponents 0 1 = .ok [] ∧ ¬ (0 < (0 : ℚ) ∧ (0 : ℚ) < 1) :=
  ⟨eval_bexp_0_1, by norm_num⟩

/-- C4, amended: `binary_exponents` raises its InvalidInput error
exactly when n < 1; it performs no range check on x (that check lives
in the parsing shell `parse_x`, outside this function). -/
theorem c4_amended (x : ℚ) (n : ℤ) :
    (∃ msg, binary_exponents x n = .error (.invalidInput msg)) ↔ n < 1 := by
  constructor
  · rintro ⟨msg, h⟩
    by_contra hn
    simp only [binary_exponents, if_neg hn] at h
    cases hl : binaryExpLoop n.toNat x with
    | none => rw [hl] at h; simp at h
    | some l => rw [hl] at h; simp at h
  · intro hn
    exact ⟨"n must be at least 1", by simp [binary_exponents, hn]⟩

/-- C5: round-trip exactness.  If the expansion of x in (0,1)
terminates before the bound n (returned length strictly below n), the
partial-sum reconstructor returns exactly x. -/
theorem c5_round_trip (x : ℚ) (n : ℤ) (h0 : 0 < x) (h1 : x < 1) (_hn : 1 ≤ n)
    (l : List ℤ) (hok : binary_exponents x n = .ok l) (hlen : l.length < n.toNat) :
    part_binary_sum l = some x := by
  obtain ⟨hel, _, _, hzero, _⟩ := binary_exponents_spec x n l h0 h1 hok
  have hrem0 : remAfter x l = 0 := hzero hlen
  have hsum := psum_remAfter l x 0 le_rfl hel
  rw [hrem0] at hsum
  simp only [zero_div, add_zero, Int.toNat_zero, pow_zero, div_one] at hsum
  have heq := partSumAux_psum l 0 0 le_rfl hel
  calc part_binary_sum l = partSumAux l 0 0 := rfl
  _ = some (0 + psum l 0) := heq
  _ = some x := by rw [zero_add, hsum]

/-- Witness for C5 at x = 5/8, n = 3 (expansion [1, 2] of length 2 < 3). -/
theorem c5_witness : part_binary_sum [1, 2] = some (5/8) :=
  c5_round_trip (5/8) 3 (by norm_num) (by norm_num) (by norm_num) [1, 2]
    eval_bexp_5_8_3 (by decide)

/-- C6: loop invariant of the expansion.  For x in (0,1), every
remainder reached along the returned expansion (including x itself and
the remainder after each update) lies in [0, 1), and it is 0 only at
the final emitted term: all strictly earlier remainders are nonzero. -/
theorem c6_remainder_invariant (x : ℚ) (n : ℤ) (h0 : 0 < x) (h1 : x < 1) (_hn : 1 ≤ n)
    (l : List ℤ) (hok : binary_exponents x n = .ok l) :
    (∀ k, k ≤ l.length → 0 ≤ remAfter x (l.take k) ∧ remAfter x (l.take k) < 1) ∧
    (∀ k, k < l.length → remAfter x (l.take k) ≠ 0) := by
  obtain ⟨_, _, htake, _, hnz⟩ := binary_exponents_spec x n l h0 h1 hok
  exact ⟨htake, hnz⟩

/-- Witness for C6 at x = 5/8, n = 3. -/
theorem c6_witness :
    (∀ k, k ≤ ([1, 2] : List ℤ).length →
      0 ≤ remAfter (5/8) (([1, 2] : List ℤ).take k) ∧
      remAfter (5/8) (([1, 2] : List ℤ).take k) < 1) ∧
    (∀ k, k < ([1, 2] : List ℤ).length → remAfter (5/8) (([1, 2] : List ℤ).take k) ≠ 0) :=
  c6_remainder_invariant (5/8) 3 (by norm_num) (by norm_num) (by norm_num) [1, 2]
    eval_bexp_5_8_3

/-- C7: exactness of the bit-length log2 computation.  For a remainder
r in (0,1) with inv = 1/r = p/q, the floor computation returns f with
q * 2^f ≤ p < q * 2^(f+1) (so f = floor(log2(p/q)) exactly), and the
ceil computation returns the emitted exponent m, the least integer
with 2^m * r ≥ 1. -/
theorem c7_log2_exact (r : ℚ) (h0 : 0 < r) (h1 : r < 1) :
    ∃ f m : ℤ,
      floorLog2Comp (1 / r).num ((1 / r).den : ℤ) = some f ∧
      ceilLog2Comp (1 / r).num ((1 / r).den : ℤ) = some m ∧
      0 ≤ f ∧
      ((1 / r).den : ℤ) * 2 ^ f.toNat ≤ (1 / r).num ∧
      (1 / r).num < ((1 / r).den : ℤ) * 2 ^ (f.toNat + 1) ∧
      1 ≤ m ∧ 1 ≤ r * 2 ^ m.toNat ∧
      (∀ j : ℤ, 0 ≤ j → 1 ≤ r * 2 ^ j.toNat → m ≤ j) := by
  have hinv1 : 1 < 1 / r := (one_lt_div h0).mpr h1
  have hq : (0 : ℤ) < ((1 / r).den : ℤ) := by exact_mod_cast (1 / r).den_pos
  have hq' : (0 : ℚ) < ((1 / r).den : ℚ) := by exact_mod_cast (1 / r).den_pos
  have hnum_den : (((1 / r).num : ℚ)) / (((1 / r).den : ℚ)) = 1 / r :=
    Rat.num_div_den (1 / r)
  have hpq : ((1 / r).den : ℤ) < (1 / r).num := by
    have h2 : (((1 / r).den : ℚ)) < (((1 / r).num : ℚ)) :=
      (one_lt_div hq').mp (by rw [hnum_den]; exact hinv1)
    exact_mod_cast h2
  obtain ⟨f, hf, hf0, hflow, hfhigh⟩ := floorLog2Comp_spec (1 / r).num ((1 / r).den : ℤ) hq hpq
  obtain ⟨m, hceil, hm1, hup, hlo⟩ := ceilLog2Comp_spec (1 / r).num ((1 / r).den : ℤ) hq hpq
  have hkey : r * (((1 / r).num : ℚ)) = ((1 / r).den : ℚ) := by
    have h2 : (((1 / r).num : ℚ)) / (((1 / r).den : ℚ)) = 1 / r := hnum_den
    field_simp at h2
    linarith
  have hup' : (((1 / r).num : ℚ)) ≤ ((1 / r).den : ℚ) * 2 ^ m.toNat := by
    exact_mod_cast hup
  have hlo' : ((1 / r).den : ℚ) * 2 ^ (m.toNat - 1) < (((1 / r).num : ℚ)) := by
    exact_mod_cast hlo
  have hineq1 : 1 ≤ r * 2 ^ m.toNat := by
    have h3 : r * (((1 / r).num : ℚ)) ≤ r * (((1 / r).den : ℚ) * 2 ^ m.toNat) :=
      mul_le_mul_of_nonneg_left hup' h0.le
    rw [hkey] at h3
    have h4 : ((1 / r).den : ℚ) * 1 ≤ ((1 / r).den : ℚ) * (r * 2 ^ m.toNat) := by
      calc ((1 / r).den : ℚ) * 1 = ((1 / r).den : ℚ) := by ring
      _ ≤ r * (((1 / r).den : ℚ) * 2 ^ m.toNat) := h3
      _ = ((1 / r).den : ℚ) * (r * 2 ^ m.toNat) := by ring
    exact le_of_mul_le_mul_left h4 hq'
  have hineq2 : r * 2 ^ (m.toNat - 1) < 1 := by
    have h3 : r * (((1 / r).den : ℚ) * 2 ^ (m.toNat - 1)) < r * (((1 / r).num : ℚ)) :=
      mul_lt_mul_of_pos_left hlo' h0
    rw [hkey] at h3
    have h4 : ((1 / r).den : ℚ) * (r * 2 ^ (m.toNat - 1)) < ((1 / r).den : ℚ) * 1 := by
      calc ((1 / r).den : ℚ) * (r * 2 ^ (m.toNat - 1))
          = r * (((1 / r).den : ℚ) * 2 ^ (m.toNat - 1)) := by ring
      _ < ((1 / r).den : ℚ) := h3
      _ = ((1 / r).den : ℚ) * 1 := by ring
    exact lt_of_mul_lt_mul_left h4 hq'.le
  refine ⟨f, m, hf, hceil, hf0, hflow, hfhigh, hm1, hineq1, ?_⟩
  intro j hj0 hj
  by_contra hcon
  push_neg at hcon
  have hjt : j.toNat ≤ m.toNat - 1 := by omega
  have hpow : (2 : ℚ) ^ j.toNat ≤ 2 ^ (m.toNat - 1) :=
    pow_le_pow_right₀ (by norm_num) hjt
  have hmul : r * 2 ^ j.toNat ≤ r * 2 ^ (m.toNat - 1) :=
    mul_le_mul_of_nonneg_left hpow h0.le
  linarith

/-- Witness for C7 at r = 5/8. -/
theorem c7_witness :
    ∃ f m : ℤ,
      floorLog2Comp (1 / (5/8 : ℚ)).num ((1 / (5/8 : ℚ)).den : ℤ) = some f ∧
      ceilLog2Comp (1 / (5/8 : ℚ)).num ((1 / (5/8 : ℚ)).den : ℤ) = some m ∧
      0 ≤ f ∧
      ((1 / (5/8 : ℚ)).den : ℤ) * 2 ^ f.toNat ≤ (1 / (5/8 : ℚ)).num ∧
      (1 / (5/8 : ℚ)).num < ((1 / (5/8 : ℚ)).den : ℤ) * 2 ^ (f.toNat + 1) ∧
      1 ≤ m ∧ 1 ≤ (5/8 : ℚ) * 2 ^ m.toNat ∧
      (∀ j : ℤ, 0 ≤ j → 1 ≤ (5/8 : ℚ) * 2 ^ j.toNat → m ≤ j) :=
  c7_log2_exact (5/8) (by norm_num) (by norm_num)

/-- C8: truncation bound.  Whenever `binary_exponents` returns a
sequence, its length is at most n, and the length is strictly below n
exactly when the remainder became 0 within fewer than n steps. -/
theorem c8_truncation (x : ℚ) (n : ℤ) (_hn : 1 ≤ n) (l : List ℤ)
    (hok : binary_exponents x n = .ok l) :
    l.length ≤ n.toNat ∧
    (l.length < n.toNat ↔ ∃ k, k < n.toNat ∧ remAfter x (l.take k) = 0) := by
  obtain ⟨_, hloop⟩ := binary_exponents_ok_loop x n l hok
  obtain ⟨hlen, hzero, hnz⟩ := binaryExpLoop_shape n.toNat x l hloop
  refine ⟨hlen, ⟨?_, ?_⟩⟩
  · intro hlt
    exact ⟨l.length, hlt, by rw [List.take_length]; exact hzero hlt⟩
  · rintro ⟨k, hk, hz⟩
    by_contra hcon
    have hklen : k < l.length := by omega
    exact hnz k hklen hz

/-- Witness for C8 at x = 5/8, n = 3. -/
theorem c8_witness :
    ([1, 2] : List ℤ).length ≤ (3 : ℤ).toNat ∧
    (([1, 2] : List ℤ).length < (3 : ℤ).toNat ↔
      ∃ k, k < (3 : ℤ).toNat ∧ remAfter (5/8) (([1, 2] : List ℤ).take k) = 0) :=
  c8_truncation (5/8) 3 (by norm_num) [1, 2] eval_bexp_5_8_3

/-- C9: totality on the documented domain.  For x in (0,1) and n ≥ 1
the expansion succeeds (no negative shift count, no division by zero),
the partial-sum reconstructor succeeds on its output, and the
bitstring renderer is total by construction. -/
theorem c9_totality (x : ℚ) (n : ℤ) (h0 : 0 < x) (h1 : x < 1) (hn : 1 ≤ n) :
    ∃ l s, binary_exponents x n = .ok l ∧ part_binary_sum l = some s ∧
      ∃ bits, exps_to_bitstring l = bits := by
  obtain ⟨l, hl, hel, _, _, _, _⟩ := binaryExpLoop_spec n.toNat x h0.le h1
  refine ⟨l, 0 + psum l 0, binary_exponents_of_loop x n l (by omega) hl, ?_, ⟨_, rfl⟩⟩
  exact partSumAux_psum l 0 0 le_rfl hel

/-- Witness for C9 at x = 5/8, n = 3. -/
theorem c9_witness :
    ∃ l s, binary_exponents (5/8) 3 = .ok l ∧ part_binary_sum l = some s ∧
      ∃ bits, exps_to_bitstring l = bits :=
  c9_totality (5/8) 3 (by norm_num) (by norm_num) (by norm_num)

/-- C10: for every finite list of positive integers (produced by the
expansion or not), the partial-sum reconstructor succeeds and returns
a rational in [0, 1), which is 0 exactly for the empty list. -/
theorem c10_sum_bounds (l : List ℤ) (hl : ∀ m ∈ l, 1 ≤ m) :
    ∃ s, part_binary_sum l = some s ∧ 0 ≤ s ∧ s < 1 ∧ (s = 0 ↔ l = []) := by
  have heq := partSumAux_psum l 0 0 le_rfl hl
  obtain ⟨hge, hlt, hpos⟩ := psum_bounds l 0 le_rfl hl
  simp only [Int.toNat_zero, pow_zero, div_one] at hlt
  refine ⟨0 + psum l 0, heq, by linarith, by linarith, ⟨?_, ?_⟩⟩
  · intro hs
    by_contra hne
    have := hpos hne
    rw [zero_add] at hs
    linarith
  · rintro rfl
    simp [psum]

/-- Witness for C10 at the list [2, 2]. -/
theorem c10_witness :
    ∃ s, part_binary_sum [2, 2] = some s ∧ 0 ≤ s ∧ s < 1 ∧
      (s = 0 ↔ ([2, 2] : List ℤ) = []) :=
  c10_sum_bounds [2, 2] (by decide)

/-- Witness for C4's amended theorem at x = 1/2, n = 0. -/
theorem c4_witness :
    (∃ msg, binary_exponents (1/2) 0 = .error (.invalidInput msg)) ↔ (0 : ℤ) < 1 :=
  c4_amended (1/2) 0
